import Mathlib

/-!
Verification of the `machine-resources` command (src/src/machine-resources.go).

The program is a pass-through wrapper: it calls an external hardware-resource
enumeration facility (`resources.GetResources`), and on success serializes the
returned snapshot with `json.MarshalIndent(v, "", "\t")` and prints it followed
by a newline; any error from either step is printed as `error: <message>` on
standard output and the process exits with status 1.

The enumeration facility and the JSON serializer live outside this repository,
so they are modelled here from the specification: the snapshot is a structured
JSON-like value (possibly containing a value the serializer cannot represent),
serialization is a generic JSON writer with a tab-indentation style, and the
round-trip claims are settled against an executable JSON parser.
-/

namespace MachineResources

/-! Modelled from the spec: the opaque "resource snapshot" produced by the
external enumeration facility is a structured value that a generic JSON
serializer can process.  The `unsupported` constructor stands for a value the
serializer cannot represent (the spec's SerializationFailure case). -/
mutual
inductive Json where
| null : Json
| bool (b : Bool) : Json
| num (n : Int) : Json
| str (s : List Char) : Json
| arr (a : JArr) : Json
| obj (o : JObj) : Json
| unsupported (typeName : List Char) : Json
inductive JArr where
| nil : JArr
| cons (hd : Json) (tl : JArr) : JArr
inductive JObj where
| nil : JObj
| cons (key : List Char) (val : Json) (tl : JObj) : JObj
end

/-- JSON insignificant whitespace. -/
def isWs (ch : Char) : Bool :=
  ch == ' ' || ch == '\t' || ch == '\n' || ch == '\x0d'

/-- Drop leading insignificant whitespace. -/
def skipWs : List Char → List Char
| [] => []
| c :: cs => if isWs c then skipWs cs else c :: cs

/-- Escape one character of a JSON string body. -/
def escChar (c : Char) : List Char :=
if c = '"' then ['\\', '"']
else if c = '\\' then ['\\', '\\']
else if c = '\n' then ['\\', 'n']
else if c = '\t' then ['\\', 't']
else if c = '\r' then ['\\', 'r']
else [c]

/-- Escape a JSON string body. -/
def escapeList : List Char → List Char
| [] => []
| c :: cs => escChar c ++ escapeList cs

/-- Invert a string escape. -/
def unesc (e : Char) : Option Char :=
if e = '"' then some '"'
else if e = '\\' then some '\\'
else if e = 'n' then some '\n'
else if e = 't' then some '\t'
else if e = 'r' then some '\r'
else none

/-- Parse a JSON string body up to and including the closing quote. -/
def parseStrChars : List Char → Option (List Char × List Char)
| [] => none
| c :: cs =>
  if c = '"' then some ([], cs)
  else if c = '\\' then
    match cs with
    | [] => none
    | e :: cs' =>
      match unesc e with
      | some u => (parseStrChars cs').map (fun p => (u :: p.1, p.2))
      | none => none
  else (parseStrChars cs).map (fun p => (c :: p.1, p.2))

/-- Decimal digits of `n`, most significant first, by fuelled division. -/
def natCharsAux : Nat → Nat → List Char
| 0, _ => []
| fuel + 1, n => if n = 0 then [] else natCharsAux fuel (n / 10) ++ [Nat.digitChar (n % 10)]

/-- Decimal representation of a natural number. -/
def natChars (n : Nat) : List Char := if n = 0 then ['0'] else natCharsAux n n

/-- Decimal representation of an integer. -/
def intChars : Int → List Char
| .ofNat m => natChars m
| .negSucc m => '-' :: natChars (m + 1)

/-- Numeric value of a decimal digit character. -/
def charDigit (c : Char) : Nat := c.toNat - '0'.toNat

/-- Parse a nonempty run of decimal digits. -/
def parseDigits (cs : List Char) : Option (Nat × List Char) :=
  let ds := cs.takeWhile (fun c => c.isDigit)
  if ds = [] then none
  else some (ds.foldl (fun a c => a * 10 + charDigit c) 0, cs.dropWhile (fun c => c.isDigit))

/-- Match a literal character sequence. -/
def expectLit : List Char → List Char → Option (List Char)
| [], cs => some cs
| _ :: _, [] => none
| l :: ls, c :: cs => if c = l then expectLit ls cs else none

/-- A whitespace style for the serializer: what is emitted after an opening
bracket, after a comma and before a closing bracket (as a function of the
nesting depth), and what follows the colon of an object key. -/
structure Style where
  nl : Nat → List Char
  colonSep : List Char

/-! Modelled from the spec: a generic JSON serializer (the repository only
calls the external `encoding/json` package).  `serVal st d v` is the JSON text
of `v` at nesting depth `d` under whitespace style `st`; an `unsupported`
value has no representation (its serialization is rejected by `marshalIndent`
below before this writer is used). -/
/-- Keyword spelling of the JSON `null` literal. -/
def kwNull : List Char := ['n', 'u', 'l', 'l']

/-- Keyword spelling of the JSON `true` literal. -/
def kwTrue : List Char := ['t', 'r', 'u', 'e']

/-- Keyword spelling of the JSON `false` literal. -/
def kwFalse : List Char := ['f', 'a', 'l', 's', 'e']

mutual
def serVal (st : Style) (d : Nat) : Json → List Char
| .null => kwNull
| .bool true => kwTrue
| .bool false => kwFalse
| .num n => intChars n
| .str s => '"' :: (escapeList s ++ ['"'])
| .arr .nil => ['[', ']']
| .arr (.cons h t) =>
    '[' :: (st.nl (d + 1) ++ (serVal st (d + 1) h ++ (serArrRest st (d + 1) t ++ (st.nl d ++ [']']))))
| .obj .nil => ['{', '}']
| .obj (.cons k v t) =>
    '{' :: (st.nl (d + 1) ++ (serField st (d + 1) k v ++ (serObjRest st (d + 1) t ++ (st.nl d ++ ['}']))))
| .unsupported _ => []
def serField (st : Style) (d : Nat) (k : List Char) (v : Json) : List Char :=
  '"' :: (escapeList k ++ ('"' :: ':' :: (st.colonSep ++ serVal st d v)))
def serArrRest (st : Style) (d : Nat) : JArr → List Char
| .nil => []
| .cons h t => ',' :: (st.nl d ++ (serVal st d h ++ serArrRest st d t))
def serObjRest (st : Style) (d : Nat) : JObj → List Char
| .nil => []
| .cons k v t => ',' :: (st.nl d ++ (serField st d k v ++ serObjRest st d t))
end

/-! First serializer-unrepresentable value inside a snapshot, if any. -/
mutual
def firstUnsupportedV : Json → Option (List Char)
| .null => none
| .bool _ => none
| .num _ => none
| .str _ => none
| .arr a => firstUnsupportedA a
| .obj o => firstUnsupportedO o
| .unsupported t => some t
def firstUnsupportedA : JArr → Option (List Char)
| .nil => none
| .cons h t =>
  match firstUnsupportedV h with
  | some m => some m
  | none => firstUnsupportedA t
def firstUnsupportedO : JObj → Option (List Char)
| .nil => none
| .cons _ v t =>
  match firstUnsupportedV v with
  | some m => some m
  | none => firstUnsupportedO t
end

/-! Parser-fuel needed for a value (nesting-depth measure). -/
mutual
def depthV : Json → Nat
| .null | .bool _ | .num _ | .str _ => 1
| .arr a => 1 + depthA a
| .obj o => 1 + depthO o
| .unsupported _ => 0
def depthA : JArr → Nat
| .nil => 1
| .cons h t => 1 + max (depthV h) (depthA t)
def depthO : JObj → Nat
| .nil => 1
| .cons _ v t => 1 + max (depthV v) (depthO t)
end

/-! Modelled from the spec: an executable JSON parser, used to state the
round-trip properties ("the output, parsed as JSON, is structurally
equivalent to the facility's returned value").  Fuelled recursive descent. -/
mutual
def parseVal : Nat → List Char → Option (Json × List Char)
| 0, _ => none
| f + 1, cs =>
  match skipWs cs with
  | [] => none
  | c :: rest =>
    if c = 'n' then (expectLit ['u', 'l', 'l'] rest).map (fun r => (Json.null, r))
    else if c = 't' then (expectLit ['r', 'u', 'e'] rest).map (fun r => (Json.bool true, r))
    else if c = 'f' then (expectLit ['a', 'l', 's', 'e'] rest).map (fun r => (Json.bool false, r))
    else if c = '"' then (parseStrChars rest).map (fun p => (Json.str p.1, p.2))
    else if c = '[' then (parseElems f rest).map (fun p => (Json.arr p.1, p.2))
    else if c = '{' then (parseFields f rest).map (fun p => (Json.obj p.1, p.2))
    else if c = '-' then (parseDigits rest).map (fun p => (Json.num (-(p.1 : Int)), p.2))
    else if c.isDigit then (parseDigits (c :: rest)).map (fun p => (Json.num (p.1 : Int), p.2))
    else none
def parseElems : Nat → List Char → Option (JArr × List Char)
| 0, _ => none
| f + 1, cs =>
  match skipWs cs with
  | [] => none
  | c :: rest =>
    if c = ']' then some (JArr.nil, rest)
    else
      match parseVal f (c :: rest) with
      | none => none
      | some (v, r1) =>
        match skipWs r1 with
        | [] => none
        | c2 :: r2 =>
          if c2 = ',' then (parseElems f r2).map (fun p => (JArr.cons v p.1, p.2))
          else if c2 = ']' then some (JArr.cons v JArr.nil, r2)
          else none
def parseFields : Nat → List Char → Option (JObj × List Char)
| 0, _ => none
| f + 1, cs =>
  match skipWs cs with
  | [] => none
  | c :: rest =>
    if c = '}' then some (JObj.nil, rest)
    else if c = '"' then
      match parseStrChars rest with
      | none => none
      | some (k, r1) =>
        match skipWs r1 with
        | [] => none
        | c2 :: r2 =>
          if c2 = ':' then
            match parseVal f r2 with
            | none => none
            | some (v, r3) =>
              match skipWs r3 with
              | [] => none
              | c3 :: r4 =>
                if c3 = ',' then (parseFields f r4).map (fun p => (JObj.cons k v p.1, p.2))
                else if c3 = '}' then some (JObj.cons k v JObj.nil, r4)
                else none
          else none
    else none
end

/-- Parse a complete JSON document (arbitrary trailing whitespace allowed). -/
def parse (cs : List Char) : Option Json :=
  match parseVal (cs.length + 1) cs with
  | some (v, rest) => if skipWs rest = [] then some v else none
  | none => none

/-- The whitespace style of `json.MarshalIndent(v, "", "\t")`: a newline and
one tab per nesting level, and a space after each object-key colon. -/
def indentStyle : Style := { nl := fun d => '\n' :: List.replicate d '\t', colonSep := [' '] }

/-- The compact style of `json.Marshal`: no inter-token whitespace. -/
def compactStyle : Style := { nl := fun _ => [], colonSep := [] }

/-- The indented style after indentation (newlines and tabs) is stripped:
only the space after each object-key colon remains. -/
def strippedStyle : Style := { nl := fun _ => [], colonSep := [' '] }

/-- Error message for a serializer-unrepresentable value,
after Go's "json: unsupported type: T". -/
def unsupportedMsg (t : List Char) : List Char :=
  ['j','s','o','n',':',' ','u','n','s','u','p','p','o','r','t','e','d',' ',
   't','y','p','e',':',' '] ++ t

/-- Modelled from the spec: `json.MarshalIndent(v, "", "\t")` - tab-indented
serialization, failing exactly when the snapshot contains a value the
serializer cannot represent. -/
def marshalIndent (v : Json) : Except (List Char) (List Char) :=
  match firstUnsupportedV v with
  | some t => Except.error (unsupportedMsg t)
  | none => Except.ok (serVal indentStyle 0 v)

/-- Modelled from the spec: the compact serialization (`json.Marshal`),
used by claim C5's comparison of formattings. -/
def marshal (v : Json) : Except (List Char) (List Char) :=
  match firstUnsupportedV v with
  | some t => Except.error (unsupportedMsg t)
  | none => Except.ok (serVal compactStyle 0 v)

/-- Observable steps of a run of the program. -/
inductive Step where
| getResources : Step
| marshalIndentCall : Step
| printStdout (s : List Char) : Step
| printStderr (s : List Char) : Step
| exitProc (code : Nat) : Step
deriving DecidableEq

/-- The `error: ` prefix of the program's diagnostic line. -/
def errPrefix : List Char := ['e','r','r','o','r',':',' ']

/-- Shallow embedding of `main` from src/src/machine-resources.go as the
sequence of observable steps of one run.  The outcome of the external
`resources.GetResources()` call is the parameter `enumRes` (snapshot or error
message); everything after it mirrors the Go control flow: print
`error: <msg>` and exit 1 on enumeration failure, otherwise call
`json.MarshalIndent`, print `error: <msg>` and exit 1 on its failure, and
otherwise print the serialized bytes followed by a newline and return
(process exit status 0). -/
def mainSteps (enumRes : Except (List Char) Json) : List Step :=
  Step.getResources ::
    match enumRes with
    | .error e => [Step.printStdout (errPrefix ++ (e ++ ['\n'])), Step.exitProc 1]
    | .ok v =>
      Step.marshalIndentCall ::
        match marshalIndent v with
        | .error e => [Step.printStdout (errPrefix ++ (e ++ ['\n'])), Step.exitProc 1]
        | .ok data => [Step.printStdout (data ++ ['\n']), Step.exitProc 0]

/-- Everything a run writes to standard output. -/
def stdoutOf : List Step → List Char
| [] => []
| Step.printStdout s :: rest => s ++ stdoutOf rest
| _ :: rest => stdoutOf rest

/-- Everything a run writes to standard error. -/
def stderrOf : List Step → List Char
| [] => []
| Step.printStderr s :: rest => s ++ stderrOf rest
| _ :: rest => stderrOf rest

/-- The exit status of a run: the code of the first exit step
(0 for a normal return). -/
def exitOf : List Step → Nat
| [] => 0
| Step.exitProc n :: _ => n
| _ :: rest => exitOf rest

/-- The observable outcome of one run. -/
structure Outcome where
  stdout : List Char
  stderr : List Char
  exitCode : Nat
deriving DecidableEq

/-- The outcome of one run of the program given the enumeration result. -/
def run (enumRes : Except (List Char) Json) : Outcome :=
  { stdout := stdoutOf (mainSteps enumRes)
    stderr := stderrOf (mainSteps enumRes)
    exitCode := exitOf (mainSteps enumRes) }

/-- The program as invoked with a command-line argument vector: the Go `main`
never reads `os.Args`, so the body does not depend on `argv`. -/
def program (_argv : List (List Char)) (enumRes : Except (List Char) Json) : Outcome :=
  run enumRes

/-- Remove all indentation characters (newlines and tabs) from serialized
output.  Inside serialized strings these characters only ever occur escaped,
so this is exactly "stripping the indentation whitespace". -/
def stripIndent (cs : List Char) : List Char :=
  cs.filter (fun c => !(c == '\n' || c == '\t'))

/-- Array-body text after the opening bracket: the elements of `a`
followed by `tail` (the closing-bracket suffix). -/
def bodyA (st : Style) (d : Nat) (tail : List Char) : JArr → List Char
| .nil => tail
| .cons h t => serVal st d h ++ (serArrRest st d t ++ tail)

/-- Object-body text after the opening brace: the fields of `o`
followed by `tail` (the closing-brace suffix). -/
def bodyO (st : Style) (d : Nat) (tail : List Char) : JObj → List Char
| .nil => tail
| .cons k v t => serField st d k v ++ (serObjRest st d t ++ tail)

/-- A list of whitespace characters only. -/
def wsList (l : List Char) : Prop := ∀ c ∈ l, isWs c = true

/-- A serializer style that emits only whitespace between tokens. -/
def wsStyle (st : Style) : Prop := (∀ d, wsList (st.nl d)) ∧ wsList st.colonSep

/-- The list does not start with a decimal digit (so a preceding number
token cannot absorb it). -/
def noDigitHead : List Char → Prop
| [] => True
| c :: _ => c.isDigit = false

theorem skipWs_append {ws : List Char} (h : wsList ws) (cs : List Char) :
    skipWs (ws ++ cs) = skipWs cs := by
  induction ws with
  | nil => rfl
  | cons c t ih =>
    have hc : isWs c = true := h c (List.mem_cons_self c t)
    have ht : wsList t := fun x hx => h x (List.mem_cons_of_mem c hx)
    simp [skipWs, hc, ih ht]

theorem skipWs_cons_of_not {c : Char} (h : isWs c = false) (cs : List Char) :
    skipWs (c :: cs) = c :: cs := by
  simp [skipWs, h]

theorem isWs_not_digit {c : Char} (h : isWs c = true) : c.isDigit = false := by
  simp only [isWs, Bool.or_eq_true, beq_iff_eq] at h
  rcases h with ((rfl | rfl) | rfl) | rfl <;> decide

theorem isDigit_ne {ch : Char} (h : ch.isDigit = true) :
    ch ≠ 'n' ∧ ch ≠ 't' ∧ ch ≠ 'f' ∧ ch ≠ '"' ∧ ch ≠ '[' ∧ ch ≠ '{' ∧ ch ≠ '-' ∧
    ch ≠ ']' ∧ ch ≠ '}' ∧ ch ≠ ',' ∧ ch ≠ ':' ∧ ch ≠ '\n' ∧ ch ≠ '\t' ∧ isWs ch = false := by
  refine ⟨?_, ?_, ?_, ?_, ?_, ?_, ?_, ?_, ?_, ?_, ?_, ?_, ?_, ?_⟩
  all_goals first
  | (intro hc; subst hc; exact absurd h (by decide))
  | (cases hw : isWs ch
     · rfl
     · exact absurd (isWs_not_digit hw) (by simp [h]))

theorem digitChar_isDigit {d : Nat} (h : d < 10) : (Nat.digitChar d).isDigit = true := by
  interval_cases d <;> decide

theorem charDigit_digitChar {d : Nat} (h : d < 10) : charDigit (Nat.digitChar d) = d := by
  interval_cases d <;> decide

theorem natCharsAux_eq : ∀ (fuel n : Nat), n ≤ fuel →
    natCharsAux fuel n = (Nat.digits 10 n).reverse.map Nat.digitChar := by
  intro fuel
  induction fuel with
  | zero =>
    intro n hn
    interval_cases n
    simp [natCharsAux, Nat.digits_zero]
  | succ f ih =>
    intro n hn
    by_cases h0 : n = 0
    · subst h0; simp [natCharsAux, Nat.digits_zero]
    · have hpos : 0 < n := Nat.pos_of_ne_zero h0
      have hdiv : n / 10 ≤ f := by
        have := Nat.div_lt_self hpos (by norm_num : 1 < 10)
        omega
      rw [Nat.digits_def' (by norm_num : 1 < 10) hpos]
      simp only [natCharsAux, h0, if_false, ih _ hdiv, List.reverse_cons, List.map_append,
        List.map_cons, List.map_nil]

theorem natChars_eq (n : Nat) :
    natChars n = if n = 0 then ['0'] else (Nat.digits 10 n).reverse.map Nat.digitChar := by
  by_cases h : n = 0
  · simp [natChars, h]
  · simp [natChars, h, natCharsAux_eq n n le_rfl]

theorem natChars_all_digits (n : Nat) : ∀ c ∈ natChars n, c.isDigit = true := by
  rw [natChars_eq]
  by_cases h : n = 0
  · simp [h]
  · simp only [h, if_false]
    intro c hc
    rcases List.mem_map.mp hc with ⟨d, hd, rfl⟩
    exact digitChar_isDigit (Nat.digits_lt_base (by norm_num) (List.mem_reverse.mp hd))

theorem natChars_ne_nil (n : Nat) : natChars n ≠ [] := by
  rw [natChars_eq]
  by_cases h : n = 0
  · simp [h]
  · simp only [h, if_false, ne_eq, List.map_eq_nil_iff, List.reverse_eq_nil_iff]
    exact Nat.digits_ne_nil_iff_ne_zero.mpr h

theorem takeWhile_app (p : Char → Bool) :
    ∀ (ds rest : List Char), (∀ c ∈ ds, p c = true) →
    (∀ c, rest.head? = some c → p c = false) →
    (ds ++ rest).takeWhile p = ds ∧ (ds ++ rest).dropWhile p = rest := by
  intro ds
  induction ds with
  | nil =>
    intro rest _ hr
    cases rest with
    | nil => exact ⟨rfl, rfl⟩
    | cons c t =>
      have := hr c rfl
      simp [List.takeWhile, List.dropWhile, this]
  | cons d t ih =>
    intro rest hall hr
    have hd : p d = true := hall d (List.mem_cons_self d t)
    have ht : ∀ c ∈ t, p c = true := fun c hc => hall c (List.mem_cons_of_mem d hc)
    obtain ⟨h1, h2⟩ := ih rest ht hr
    simp [List.takeWhile, List.dropWhile, hd, h1, h2]

theorem foldl_digits :
    ∀ (l : List Nat), (∀ d ∈ l, d < 10) → ∀ (a : Nat),
    (l.reverse.map Nat.digitChar).foldl (fun acc c => acc * 10 + charDigit c) a
      = a * 10 ^ l.length + Nat.ofDigits 10 l := by
  intro l
  induction l with
  | nil => intro _ a; simp [Nat.ofDigits_nil]
  | cons d t ih =>
    intro h a
    have hd : d < 10 := h d (List.mem_cons_self d t)
    have ht : ∀ x ∈ t, x < 10 := fun x hx => h x (List.mem_cons_of_mem d hx)
    simp only [List.reverse_cons, List.map_append, List.map_cons, List.map_nil,
      List.foldl_append, List.foldl_cons, List.foldl_nil, ih ht a,
      charDigit_digitChar hd, Nat.ofDigits_cons, List.length_cons]
    ring

theorem noDigitHead_head? {rest : List Char} (hr : noDigitHead rest) :
    ∀ c, rest.head? = some c → c.isDigit = false := by
  intro c hc
  cases rest with
  | nil => simp at hc
  | cons x t =>
    simp only [List.head?_cons, Option.some.injEq] at hc
    subst hc
    exact hr

theorem parseDigits_natChars (n : Nat) (rest : List Char) (hr : noDigitHead rest) :
    parseDigits (natChars n ++ rest) = some (n, rest) := by
  obtain ⟨h1, h2⟩ := takeWhile_app (fun c => c.isDigit) (natChars n) rest
    (natChars_all_digits n) (noDigitHead_head? hr)
  simp only [parseDigits, h1, h2, natChars_ne_nil n, if_false]
  by_cases h0 : n = 0
  · subst h0
    simp [natChars]
    decide
  · rw [natChars_eq]
    simp only [h0, if_false]
    rw [foldl_digits _ (fun d hd => Nat.digits_lt_base (by norm_num) hd) 0]
    simp [Nat.ofDigits_digits]

theorem expectLit_append : ∀ (l r : List Char), expectLit l (l ++ r) = some r := by
  intro l
  induction l with
  | nil => intro r; rfl
  | cons c t ih => intro r; simp [expectLit, ih r]

theorem parseStrChars_escape :
    ∀ (s rest : List Char), parseStrChars (escapeList s ++ ('"' :: rest)) = some (s, rest) := by
  intro s
  induction s with
  | nil =>
    intro rest
    rw [show escapeList [] ++ ('"' :: rest) = '"' :: rest from rfl, parseStrChars.eq_def]
    simp
  | cons c t ih =>
    intro rest
    by_cases h1 : c = '"'
    · subst h1
      simp only [escapeList, escChar, if_pos rfl, List.cons_append, List.append_assoc]
      rw [parseStrChars.eq_def]
      simp [unesc, ih rest]
    · by_cases h2 : c = '\\'
      · subst h2
        simp only [escapeList, escChar, if_pos rfl, if_neg (by decide : ¬('\\' : Char) = '"'),
          List.cons_append, List.append_assoc]
        rw [parseStrChars.eq_def]
        simp [unesc, ih rest]
      · by_cases h3 : c = '\n'
        · subst h3
          simp only [escapeList, escChar, if_pos rfl, if_neg (by decide : ¬('\n' : Char) = '"'),
            if_neg (by decide : ¬('\n' : Char) = '\\'), List.cons_append, List.append_assoc]
          rw [parseStrChars.eq_def]
          simp [unesc, ih rest]
        · by_cases h4 : c = '\t'
          · subst h4
            simp only [escapeList, escChar, if_pos rfl, if_neg (by decide : ¬('\t' : Char) = '"'),
              if_neg (by decide : ¬('\t' : Char) = '\\'),
              if_neg (by decide : ¬('\t' : Char) = '\n'), List.cons_append, List.append_assoc]
            rw [parseStrChars.eq_def]
            simp [unesc, ih rest]
          · by_cases h5 : c = '\r'
            · subst h5
              simp only [escapeList, escChar, if_pos rfl,
                if_neg (by decide : ¬('\r' : Char) = '"'),
                if_neg (by decide : ¬('\r' : Char) = '\\'),
                if_neg (by decide : ¬('\r' : Char) = '\n'),
                if_neg (by decide : ¬('\r' : Char) = '\t'),
                List.cons_append, List.append_assoc]
              rw [parseStrChars.eq_def]
              simp [unesc, ih rest]
            · simp only [escapeList, escChar, if_neg h1, if_neg h2, if_neg h3, if_neg h4,
                if_neg h5, List.cons_append, List.append_assoc, List.nil_append]
              rw [parseStrChars.eq_def]
              simp [h1, h2, ih rest]

theorem supV_arr {a : JArr} (hs : firstUnsupportedV (Json.arr a) = none) :
    firstUnsupportedA a = none := by
  simpa [firstUnsupportedV] using hs

theorem supV_obj {o : JObj} (hs : firstUnsupportedV (Json.obj o) = none) :
    firstUnsupportedO o = none := by
  simpa [firstUnsupportedV] using hs

theorem supA_cons {hd : Json} {tl : JArr} (hs : firstUnsupportedA (JArr.cons hd tl) = none) :
    firstUnsupportedV hd = none ∧ firstUnsupportedA tl = none := by
  rw [firstUnsupportedA.eq_def] at hs
  cases hh : firstUnsupportedV hd with
  | some m => simp [hh] at hs
  | none => simp only [hh] at hs; exact ⟨rfl, hs⟩

theorem supO_cons {k : List Char} {v : Json} {tl : JObj}
    (hs : firstUnsupportedO (JObj.cons k v tl) = none) :
    firstUnsupportedV v = none ∧ firstUnsupportedO tl = none := by
  rw [firstUnsupportedO.eq_def] at hs
  cases hh : firstUnsupportedV v with
  | some m => simp [hh] at hs
  | none => simp only [hh] at hs; exact ⟨rfl, hs⟩

theorem noDigitHead_cons {c : Char} (hc : c.isDigit = false) (rest : List Char) :
    noDigitHead (c :: rest) := hc

theorem noDigitHead_ws_append {ws rest : List Char} (hws : wsList ws)
    (hr : noDigitHead rest) : noDigitHead (ws ++ rest) := by
  cases ws with
  | nil => exact hr
  | cons c t =>
    exact noDigitHead_cons (isWs_not_digit (hws c (List.mem_cons_self c t))) _

theorem wsStyle_indent : wsStyle indentStyle := by
  constructor
  · intro d c hc
    simp only [indentStyle, List.mem_cons] at hc
    rcases hc with rfl | hc
    · decide
    · rw [List.eq_of_mem_replicate hc]; decide
  · intro c hc
    simp only [indentStyle, List.mem_cons, List.not_mem_nil, or_false] at hc
    subst hc; decide

theorem wsStyle_compact : wsStyle compactStyle := by
  constructor
  · intro d c hc; simp [compactStyle] at hc
  · intro c hc; simp [compactStyle] at hc

theorem wsStyle_stripped : wsStyle strippedStyle := by
  constructor
  · intro d c hc; simp [strippedStyle] at hc
  · intro c hc
    simp only [strippedStyle, List.mem_cons, List.not_mem_nil, or_false] at hc
    subst hc; decide

theorem serVal_head (st : Style) (d : Nat) (v : Json)
    (hs : firstUnsupportedV v = none) :
    ∃ c cs, serVal st d v = c :: cs ∧ isWs c = false ∧ c ≠ ']' ∧ c ≠ '}' := by
  cases v with
  | null =>
    refine ⟨'n', ['u', 'l', 'l'], ?_, by decide, by decide, by decide⟩
    rw [serVal.eq_def]
    rfl
  | bool b =>
    cases b
    · refine ⟨'f', ['a', 'l', 's', 'e'], ?_, by decide, by decide, by decide⟩
      rw [serVal.eq_def]
      rfl
    · refine ⟨'t', ['r', 'u', 'e'], ?_, by decide, by decide, by decide⟩
      rw [serVal.eq_def]
      rfl
  | num n =>
    cases n with
    | ofNat m =>
      have hne := natChars_ne_nil m
      obtain ⟨c, cs, hc⟩ := List.exists_cons_of_ne_nil hne
      have hcd : c.isDigit = true := by
        apply natChars_all_digits m
        rw [hc]; exact List.mem_cons_self c cs
      obtain ⟨_, _, _, _, _, _, _, h8, h9, _, _, _, _, h14⟩ := isDigit_ne hcd
      refine ⟨c, cs, ?_, h14, h8, h9⟩
      rw [serVal.eq_def]
      simpa [intChars] using hc
    | negSucc m =>
      refine ⟨'-', natChars (m + 1), ?_, by decide, by decide, by decide⟩
      rw [serVal.eq_def]
      simp [intChars]
  | str s =>
    refine ⟨'"', escapeList s ++ ['"'], ?_, by decide, by decide, by decide⟩
    rw [serVal.eq_def]
  | arr a =>
    cases a with
    | nil =>
      refine ⟨'[', [']'], ?_, by decide, by decide, by decide⟩
      rw [serVal.eq_def]
    | cons h t =>
      refine ⟨'[', st.nl (d + 1) ++ (serVal st (d + 1) h ++
        (serArrRest st (d + 1) t ++ (st.nl d ++ [']']))), ?_, by decide, by decide, by decide⟩
      rw [serVal.eq_def]
  | obj o =>
    cases o with
    | nil =>
      refine ⟨'{', ['}'], ?_, by decide, by decide, by decide⟩
      rw [serVal.eq_def]
    | cons k v t =>
      refine ⟨'{', st.nl (d + 1) ++ (serField st (d + 1) k v ++
        (serObjRest st (d + 1) t ++ (st.nl d ++ ['}']))), ?_, by decide, by decide, by decide⟩
      rw [serVal.eq_def]
  | unsupported t => exact absurd hs (by simp [firstUnsupportedV])

@[simp] theorem serVal_null (st : Style) (d : Nat) :
    serVal st d Json.null = ['n', 'u', 'l', 'l'] := by rw [serVal.eq_def]; rfl

@[simp] theorem serVal_true (st : Style) (d : Nat) :
    serVal st d (Json.bool true) = ['t', 'r', 'u', 'e'] := by rw [serVal.eq_def]; rfl

@[simp] theorem serVal_false (st : Style) (d : Nat) :
    serVal st d (Json.bool false) = ['f', 'a', 'l', 's', 'e'] := by rw [serVal.eq_def]; rfl

@[simp] theorem serVal_num (st : Style) (d : Nat) (n : Int) :
    serVal st d (Json.num n) = intChars n := by rw [serVal.eq_def]

@[simp] theorem serVal_str (st : Style) (d : Nat) (s : List Char) :
    serVal st d (Json.str s) = '"' :: (escapeList s ++ ['"']) := by rw [serVal.eq_def]

@[simp] theorem serVal_arr_nil (st : Style) (d : Nat) :
    serVal st d (Json.arr JArr.nil) = ['[', ']'] := by rw [serVal.eq_def]

@[simp] theorem serVal_arr_cons (st : Style) (d : Nat) (h : Json) (t : JArr) :
    serVal st d (Json.arr (JArr.cons h t)) =
      '[' :: (st.nl (d + 1) ++ (serVal st (d + 1) h ++
        (serArrRest st (d + 1) t ++ (st.nl d ++ [']'])))) := by rw [serVal.eq_def]

@[simp] theorem serVal_obj_nil (st : Style) (d : Nat) :
    serVal st d (Json.obj JObj.nil) = ['{', '}'] := by rw [serVal.eq_def]

@[simp] theorem serVal_obj_cons (st : Style) (d : Nat) (k : List Char) (v : Json) (t : JObj) :
    serVal st d (Json.obj (JObj.cons k v t)) =
      '{' :: (st.nl (d + 1) ++ (serField st (d + 1) k v ++
        (serObjRest st (d + 1) t ++ (st.nl d ++ ['}'])))) := by rw [serVal.eq_def]

@[simp] theorem serVal_unsupported (st : Style) (d : Nat) (t : List Char) :
    serVal st d (Json.unsupported t) = [] := by rw [serVal.eq_def]

@[simp] theorem serField_eq (st : Style) (d : Nat) (k : List Char) (v : Json) :
    serField st d k v =
      '"' :: (escapeList k ++ ('"' :: ':' :: (st.colonSep ++ serVal st d v))) := by
  rw [serField.eq_def]

@[simp] theorem serArrRest_nil (st : Style) (d : Nat) :
    serArrRest st d JArr.nil = [] := by rw [serArrRest.eq_def]

@[simp] theorem serArrRest_cons (st : Style) (d : Nat) (h : Json) (t : JArr) :
    serArrRest st d (JArr.cons h t) =
      ',' :: (st.nl d ++ (serVal st d h ++ serArrRest st d t)) := by rw [serArrRest.eq_def]

@[simp] theorem serObjRest_nil (st : Style) (d : Nat) :
    serObjRest st d JObj.nil = [] := by rw [serObjRest.eq_def]

@[simp] theorem serObjRest_cons (st : Style) (d : Nat) (k : List Char) (v : Json) (t : JObj) :
    serObjRest st d (JObj.cons k v t) =
      ',' :: (st.nl d ++ (serField st d k v ++ serObjRest st d t)) := by rw [serObjRest.eq_def]

@[simp] theorem depthV_null : depthV Json.null = 1 := by rw [depthV.eq_def]

@[simp] theorem depthV_bool (b : Bool) : depthV (Json.bool b) = 1 := by rw [depthV.eq_def]

@[simp] theorem depthV_num (n : Int) : depthV (Json.num n) = 1 := by rw [depthV.eq_def]

@[simp] theorem depthV_str (s : List Char) : depthV (Json.str s) = 1 := by rw [depthV.eq_def]

@[simp] theorem depthV_arr (a : JArr) : depthV (Json.arr a) = 1 + depthA a := by
  rw [depthV.eq_def]

@[simp] theorem depthV_obj (o : JObj) : depthV (Json.obj o) = 1 + depthO o := by
  rw [depthV.eq_def]

@[simp] theorem depthV_unsupported (t : List Char) : depthV (Json.unsupported t) = 0 := by
  rw [depthV.eq_def]

@[simp] theorem depthA_nil : depthA JArr.nil = 1 := by rw [depthA.eq_def]

@[simp] theorem depthA_cons (h : Json) (t : JArr) :
    depthA (JArr.cons h t) = 1 + max (depthV h) (depthA t) := by rw [depthA.eq_def]

@[simp] theorem depthO_nil : depthO JObj.nil = 1 := by rw [depthO.eq_def]

@[simp] theorem depthO_cons (k : List Char) (v : Json) (t : JObj) :
    depthO (JObj.cons k v t) = 1 + max (depthV v) (depthO t) := by rw [depthO.eq_def]

@[simp] theorem fuV_null : firstUnsupportedV Json.null = none := by rw [firstUnsupportedV.eq_def]

@[simp] theorem fuV_bool (b : Bool) : firstUnsupportedV (Json.bool b) = none := by
  rw [firstUnsupportedV.eq_def]

@[simp] theorem fuV_num (n : Int) : firstUnsupportedV (Json.num n) = none := by
  rw [firstUnsupportedV.eq_def]

@[simp] theorem fuV_str (s : List Char) : firstUnsupportedV (Json.str s) = none := by
  rw [firstUnsupportedV.eq_def]

@[simp] theorem fuV_arr (a : JArr) : firstUnsupportedV (Json.arr a) = firstUnsupportedA a := by
  rw [firstUnsupportedV.eq_def]

@[simp] theorem fuV_obj (o : JObj) : firstUnsupportedV (Json.obj o) = firstUnsupportedO o := by
  rw [firstUnsupportedV.eq_def]

@[simp] theorem fuV_unsupported (t : List Char) :
    firstUnsupportedV (Json.unsupported t) = some t := by rw [firstUnsupportedV.eq_def]

@[simp] theorem fuA_nil : firstUnsupportedA JArr.nil = none := by rw [firstUnsupportedA.eq_def]

@[simp] theorem fuA_cons (hd : Json) (tl : JArr) :
    firstUnsupportedA (JArr.cons hd tl) =
      (match firstUnsupportedV hd with
       | some m => some m
       | none => firstUnsupportedA tl) := by rw [firstUnsupportedA.eq_def]

@[simp] theorem fuO_nil : firstUnsupportedO JObj.nil = none := by rw [firstUnsupportedO.eq_def]

@[simp] theorem fuO_cons (k : List Char) (v : Json) (tl : JObj) :
    firstUnsupportedO (JObj.cons k v tl) =
      (match firstUnsupportedV v with
       | some m => some m
       | none => firstUnsupportedO tl) := by rw [firstUnsupportedO.eq_def]

theorem skipWs_shape {ws : List Char} (hws : wsList ws) {c : Char} (hc : isWs c = false)
    (r : List Char) : skipWs (ws ++ (c :: r)) = c :: r := by
  rw [skipWs_append hws]; exact skipWs_cons_of_not hc r

theorem parseVal_step_n {f : Nat} {cs rest2 : List Char} (h : skipWs cs = 'n' :: rest2) :
    parseVal (f + 1) cs = (expectLit ['u', 'l', 'l'] rest2).map (fun r => (Json.null, r)) := by
  rw [parseVal.eq_def]
  simp only [h]
  simp

theorem parseVal_step_t {f : Nat} {cs rest2 : List Char} (h : skipWs cs = 't' :: rest2) :
    parseVal (f + 1) cs = (expectLit ['r', 'u', 'e'] rest2).map (fun r => (Json.bool true, r)) := by
  rw [parseVal.eq_def]
  simp only [h]
  simp

theorem parseVal_step_f {f : Nat} {cs rest2 : List Char} (h : skipWs cs = 'f' :: rest2) :
    parseVal (f + 1) cs
      = (expectLit ['a', 'l', 's', 'e'] rest2).map (fun r => (Json.bool false, r)) := by
  rw [parseVal.eq_def]
  simp only [h]
  simp

theorem parseVal_step_quote {f : Nat} {cs rest2 : List Char} (h : skipWs cs = '"' :: rest2) :
    parseVal (f + 1) cs = (parseStrChars rest2).map (fun p => (Json.str p.1, p.2)) := by
  rw [parseVal.eq_def]
  simp only [h]
  simp

theorem parseVal_step_arr {f : Nat} {cs rest2 : List Char} (h : skipWs cs = '[' :: rest2) :
    parseVal (f + 1) cs = (parseElems f rest2).map (fun p => (Json.arr p.1, p.2)) := by
  rw [parseVal.eq_def]
  simp only [h]
  simp

theorem parseVal_step_obj {f : Nat} {cs rest2 : List Char} (h : skipWs cs = '{' :: rest2) :
    parseVal (f + 1) cs = (parseFields f rest2).map (fun p => (Json.obj p.1, p.2)) := by
  rw [parseVal.eq_def]
  simp only [h]
  simp

theorem parseVal_step_minus {f : Nat} {cs rest2 : List Char} (h : skipWs cs = '-' :: rest2) :
    parseVal (f + 1) cs = (parseDigits rest2).map (fun p => (Json.num (-(p.1 : Int)), p.2)) := by
  rw [parseVal.eq_def]
  simp only [h]
  simp

theorem parseVal_step_digit {f : Nat} {cs rest2 : List Char} {c : Char}
    (hc : c.isDigit = true) (h : skipWs cs = c :: rest2) :
    parseVal (f + 1) cs = (parseDigits (c :: rest2)).map (fun p => (Json.num (p.1 : Int), p.2)) := by
  obtain ⟨h1, h2, h3, h4, h5, h6, h7, _, _, _, _, _, _, _⟩ := isDigit_ne hc
  rw [parseVal.eq_def]
  simp only [h]
  simp [h1, h2, h3, h4, h5, h6, h7, hc]

theorem parseElems_step_close {f : Nat} {cs rest2 : List Char} (h : skipWs cs = ']' :: rest2) :
    parseElems (f + 1) cs = some (JArr.nil, rest2) := by
  rw [parseElems.eq_def]
  simp only [h]
  simp

theorem parseElems_step_elem {f : Nat} {cs rest2 : List Char} {c : Char}
    (hne : ¬c = ']') (h : skipWs cs = c :: rest2) :
    parseElems (f + 1) cs =
      (match parseVal f (c :: rest2) with
       | none => none
       | some (v, r1) =>
         match skipWs r1 with
         | [] => none
         | c2 :: r2 =>
           if c2 = ',' then (parseElems f r2).map (fun p => (JArr.cons v p.1, p.2))
           else if c2 = ']' then some (JArr.cons v JArr.nil, r2)
           else none) := by
  rw [parseElems.eq_def]
  simp only [h]
  simp [hne]

theorem parseFields_step_close {f : Nat} {cs rest2 : List Char} (h : skipWs cs = '}' :: rest2) :
    parseFields (f + 1) cs = some (JObj.nil, rest2) := by
  rw [parseFields.eq_def]
  simp only [h]
  simp

theorem parseFields_step_key {f : Nat} {cs rest2 : List Char} (h : skipWs cs = '"' :: rest2) :
    parseFields (f + 1) cs =
      (match parseStrChars rest2 with
       | none => none
       | some (k, r1) =>
         match skipWs r1 with
         | [] => none
         | c2 :: r2 =>
           if c2 = ':' then
             match parseVal f r2 with
             | none => none
             | some (v, r3) =>
               match skipWs r3 with
               | [] => none
               | c3 :: r4 =>
                 if c3 = ',' then (parseFields f r4).map (fun p => (JObj.cons k v p.1, p.2))
                 else if c3 = '}' then some (JObj.cons k v JObj.nil, r4)
                 else none
           else none) := by
  rw [parseFields.eq_def]
  simp only [h]
  simp

theorem isDigit_not_ws {c : Char} (h : c.isDigit = true) : isWs c = false :=
  (isDigit_ne h).2.2.2.2.2.2.2.2.2.2.2.2.2

theorem wsList_nil : wsList [] := fun c hc => absurd hc (List.not_mem_nil c)

theorem wsList_append {a b : List Char} (ha : wsList a) (hb : wsList b) : wsList (a ++ b) := by
  intro c hc
  rcases List.mem_append.mp hc with h | h
  exacts [ha c h, hb c h]

theorem parseFields_step_field {f : Nat} {cs : List Char} {k R : List Char}
    (h : skipWs cs = '"' :: (escapeList k ++ ('"' :: ':' :: R))) :
    parseFields (f + 1) cs =
      (match parseVal f R with
       | none => none
       | some (v, r3) =>
         match skipWs r3 with
         | [] => none
         | c3 :: r4 =>
           if c3 = ',' then (parseFields f r4).map (fun p => (JObj.cons k v p.1, p.2))
           else if c3 = '}' then some (JObj.cons k v JObj.nil, r4)
           else none) := by
  rw [parseFields_step_key h, parseStrChars_escape k (':' :: R)]
  simp [skipWs_cons_of_not (by decide : isWs ':' = false)]

mutual

theorem roundTripV (st : Style) (hst : wsStyle st) (v : Json)
    (hs : firstUnsupportedV v = none) (f : Nat) (hf : depthV v ≤ f)
    (d : Nat) (ws0 rest : List Char) (hws0 : wsList ws0) (hrest : noDigitHead rest) :
    parseVal f (ws0 ++ (serVal st d v ++ rest)) = some (v, rest) := by
  cases v with
  | null =>
    obtain ⟨f', rfl⟩ : ∃ f', f = f' + 1 := ⟨f - 1, by simp at hf; omega⟩
    have hsk : skipWs (ws0 ++ (serVal st d Json.null ++ rest))
        = 'n' :: ('u' :: 'l' :: 'l' :: rest) := by
      simp only [serVal_null, List.cons_append, List.nil_append]
      exact skipWs_shape hws0 (by decide) _
    rw [parseVal_step_n hsk]
    simp [expectLit]
  | bool b =>
    obtain ⟨f', rfl⟩ : ∃ f', f = f' + 1 := ⟨f - 1, by simp at hf; omega⟩
    cases b with
    | true =>
      have hsk : skipWs (ws0 ++ (serVal st d (Json.bool true) ++ rest))
          = 't' :: ('r' :: 'u' :: 'e' :: rest) := by
        simp only [serVal_true, List.cons_append, List.nil_append]
        exact skipWs_shape hws0 (by decide) _
      rw [parseVal_step_t hsk]
      simp [expectLit]
    | false =>
      have hsk : skipWs (ws0 ++ (serVal st d (Json.bool false) ++ rest))
          = 'f' :: ('a' :: 'l' :: 's' :: 'e' :: rest) := by
        simp only [serVal_false, List.cons_append, List.nil_append]
        exact skipWs_shape hws0 (by decide) _
      rw [parseVal_step_f hsk]
      simp [expectLit]
  | num n =>
    obtain ⟨f', rfl⟩ : ∃ f', f = f' + 1 := ⟨f - 1, by simp at hf; omega⟩
    cases n with
    | ofNat m =>
      obtain ⟨c, cs, hc⟩ := List.exists_cons_of_ne_nil (natChars_ne_nil m)
      have hcd : c.isDigit = true :=
        natChars_all_digits m c (by rw [hc]; exact List.mem_cons_self c cs)
      have hsk : skipWs (ws0 ++ (serVal st d (Json.num (Int.ofNat m)) ++ rest))
          = c :: (cs ++ rest) := by
        simp only [serVal_num, intChars, hc, List.cons_append]
        exact skipWs_shape hws0 (isDigit_not_ws hcd) _
      rw [parseVal_step_digit hcd hsk]
      rw [show c :: (cs ++ rest) = natChars m ++ rest from by simp [hc]]
      rw [parseDigits_natChars m rest hrest]
      simp [Int.ofNat_eq_coe]
    | negSucc m =>
      have hsk : skipWs (ws0 ++ (serVal st d (Json.num (Int.negSucc m)) ++ rest))
          = '-' :: (natChars (m + 1) ++ rest) := by
        simp only [serVal_num, intChars, List.cons_append]
        exact skipWs_shape hws0 (by decide) _
      rw [parseVal_step_minus hsk]
      rw [parseDigits_natChars (m + 1) rest hrest]
      simp [Int.negSucc_eq]
  | str s =>
    obtain ⟨f', rfl⟩ : ∃ f', f = f' + 1 := ⟨f - 1, by simp at hf; omega⟩
    have hsk : skipWs (ws0 ++ (serVal st d (Json.str s) ++ rest))
        = '"' :: (escapeList s ++ ('"' :: rest)) := by
      simp only [serVal_str, List.cons_append, List.append_assoc, List.singleton_append]
      exact skipWs_shape hws0 (by decide) _
    rw [parseVal_step_quote hsk, parseStrChars_escape s rest]
    simp
  | arr a =>
    cases a with
    | nil =>
      obtain ⟨f', rfl⟩ : ∃ f', f = f' + 1 := ⟨f - 1, by simp at hf; omega⟩
      obtain ⟨f'', rfl⟩ : ∃ f'', f' = f'' + 1 := ⟨f' - 1, by simp at hf; omega⟩
      have hsk : skipWs (ws0 ++ (serVal st d (Json.arr JArr.nil) ++ rest))
          = '[' :: (']' :: rest) := by
        simp only [serVal_arr_nil, List.cons_append, List.nil_append]
        exact skipWs_shape hws0 (by decide) _
      rw [parseVal_step_arr hsk]
      rw [parseElems_step_close (skipWs_cons_of_not (by decide) rest)]
      simp
    | cons h t =>
      obtain ⟨f', rfl⟩ : ∃ f', f = f' + 1 := ⟨f - 1, by simp at hf; omega⟩
      have hfa : depthA (JArr.cons h t) ≤ f' := by rw [depthV_arr] at hf; omega
      have hsk : skipWs (ws0 ++ (serVal st d (Json.arr (JArr.cons h t)) ++ rest))
          = '[' :: (st.nl (d + 1) ++ (serVal st (d + 1) h ++
              (serArrRest st (d + 1) t ++ (st.nl d ++ (']' :: rest))))) := by
        simp only [serVal_arr_cons, List.cons_append, List.append_assoc, List.singleton_append]
        exact skipWs_shape hws0 (by decide) _
      rw [parseVal_step_arr hsk]
      have hRA := roundTripA st hst (JArr.cons h t) (supV_arr hs) f' hfa (d + 1)
        (st.nl (d + 1)) (st.nl d) rest (hst.1 (d + 1)) (hst.1 d) hrest
      simp only [bodyA] at hRA
      rw [hRA]
      simp
  | obj o =>
    cases o with
    | nil =>
      obtain ⟨f', rfl⟩ : ∃ f', f = f' + 1 := ⟨f - 1, by simp at hf; omega⟩
      obtain ⟨f'', rfl⟩ : ∃ f'', f' = f'' + 1 := ⟨f' - 1, by simp at hf; omega⟩
      have hsk : skipWs (ws0 ++ (serVal st d (Json.obj JObj.nil) ++ rest))
          = '{' :: ('}' :: rest) := by
        simp only [serVal_obj_nil, List.cons_append, List.nil_append]
        exact skipWs_shape hws0 (by decide) _
      rw [parseVal_step_obj hsk]
      rw [parseFields_step_close (skipWs_cons_of_not (by decide) rest)]
      simp
    | cons k v t =>
      obtain ⟨f', rfl⟩ : ∃ f', f = f' + 1 := ⟨f - 1, by simp at hf; omega⟩
      have hfo : depthO (JObj.cons k v t) ≤ f' := by rw [depthV_obj] at hf; omega
      have hsk : skipWs (ws0 ++ (serVal st d (Json.obj (JObj.cons k v t)) ++ rest))
          = '{' :: (st.nl (d + 1) ++ (serField st (d + 1) k v ++
              (serObjRest st (d + 1) t ++ (st.nl d ++ ('}' :: rest))))) := by
        simp only [serVal_obj_cons, List.cons_append, List.append_assoc, List.singleton_append]
        exact skipWs_shape hws0 (by decide) _
      rw [parseVal_step_obj hsk]
      have hRO := roundTripO st hst (JObj.cons k v t) (supV_obj hs) f' hfo (d + 1)
        (st.nl (d + 1)) (st.nl d) rest (hst.1 (d + 1)) (hst.1 d) hrest
      simp only [bodyO] at hRO
      rw [hRO]
      simp
  | unsupported t => exact absurd hs (by simp)
termination_by sizeOf v

theorem roundTripA (st : Style) (hst : wsStyle st) (a : JArr)
    (hs : firstUnsupportedA a = none) (f : Nat) (hf : depthA a ≤ f)
    (d : Nat) (ws0 ws1 rest : List Char) (hws0 : wsList ws0) (hws1 : wsList ws1)
    (hrest : noDigitHead rest) :
    parseElems f (ws0 ++ bodyA st d (ws1 ++ (']' :: rest)) a) = some (a, rest) := by
  cases a with
  | nil =>
    obtain ⟨f', rfl⟩ : ∃ f', f = f' + 1 := ⟨f - 1, by simp at hf; omega⟩
    have hsk : skipWs (ws0 ++ bodyA st d (ws1 ++ (']' :: rest)) JArr.nil) = ']' :: rest := by
      simp only [bodyA]
      rw [← List.append_assoc]
      exact skipWs_shape (wsList_append hws0 hws1) (by decide) rest
    exact parseElems_step_close hsk
  | cons h t =>
    obtain ⟨hsh, hstl⟩ := supA_cons hs
    obtain ⟨f', rfl⟩ : ∃ f', f = f' + 1 := ⟨f - 1, by simp at hf; omega⟩
    have hmax : max (depthV h) (depthA t) ≤ f' := by rw [depthA_cons] at hf; omega
    have hfh : depthV h ≤ f' := le_trans (le_max_left _ _) hmax
    have hft : depthA t ≤ f' := le_trans (le_max_right _ _) hmax
    obtain ⟨c, cs, hcons, hcws, hcrb, hccb⟩ := serVal_head st d h hsh
    have hsk : skipWs (ws0 ++ bodyA st d (ws1 ++ (']' :: rest)) (JArr.cons h t))
        = c :: (cs ++ (serArrRest st d t ++ (ws1 ++ (']' :: rest)))) := by
      simp only [bodyA, hcons, List.cons_append]
      exact skipWs_shape hws0 hcws _
    rw [parseElems_step_elem hcrb hsk]
    have hndh : noDigitHead (serArrRest st d t ++ (ws1 ++ (']' :: rest))) := by
      cases t with
      | nil =>
        simp only [serArrRest_nil, List.nil_append]
        exact noDigitHead_ws_append hws1 (noDigitHead_cons (by decide) rest)
      | cons h2 t2 =>
        simp only [serArrRest_cons, List.cons_append]
        exact noDigitHead_cons (by decide) _
    have hPV : parseVal f' (c :: (cs ++ (serArrRest st d t ++ (ws1 ++ (']' :: rest)))))
        = some (h, serArrRest st d t ++ (ws1 ++ (']' :: rest))) := by
      have hrt := roundTripV st hst h hsh f' hfh d []
        (serArrRest st d t ++ (ws1 ++ (']' :: rest))) wsList_nil hndh
      rw [List.nil_append, hcons, List.cons_append] at hrt
      exact hrt
    rw [hPV]
    cases t with
    | nil =>
      have hsk2 : skipWs (serArrRest st d JArr.nil ++ (ws1 ++ (']' :: rest)))
          = ']' :: rest := by
        simp only [serArrRest_nil, List.nil_append]
        exact skipWs_shape hws1 (by decide) rest
      simp only [hsk2, eq_false (by decide : ¬(']' : Char) = ','), if_false,
        eq_self_iff_true, if_true]
    | cons h2 t2 =>
      have hsk2 : skipWs (serArrRest st d (JArr.cons h2 t2) ++ (ws1 ++ (']' :: rest)))
          = ',' :: (st.nl d ++ (serVal st d h2 ++ (serArrRest st d t2 ++
              (ws1 ++ (']' :: rest))))) := by
        simp only [serArrRest_cons, List.cons_append, List.append_assoc]
        exact skipWs_cons_of_not (by decide) _
      have hRA := roundTripA st hst (JArr.cons h2 t2) hstl f' hft d (st.nl d) ws1 rest
        (hst.1 d) hws1 hrest
      simp only [bodyA] at hRA
      simp only [hsk2, eq_self_iff_true, if_true, hRA, Option.map_some']
termination_by sizeOf a

theorem roundTripO (st : Style) (hst : wsStyle st) (o : JObj)
    (hs : firstUnsupportedO o = none) (f : Nat) (hf : depthO o ≤ f)
    (d : Nat) (ws0 ws1 rest : List Char) (hws0 : wsList ws0) (hws1 : wsList ws1)
    (hrest : noDigitHead rest) :
    parseFields f (ws0 ++ bodyO st d (ws1 ++ ('}' :: rest)) o) = some (o, rest) := by
  cases o with
  | nil =>
    obtain ⟨f', rfl⟩ : ∃ f', f = f' + 1 := ⟨f - 1, by simp at hf; omega⟩
    have hsk : skipWs (ws0 ++ bodyO st d (ws1 ++ ('}' :: rest)) JObj.nil) = '}' :: rest := by
      simp only [bodyO]
      rw [← List.append_assoc]
      exact skipWs_shape (wsList_append hws0 hws1) (by decide) rest
    exact parseFields_step_close hsk
  | cons k v t =>
    obtain ⟨hsv, hstl⟩ := supO_cons hs
    obtain ⟨f', rfl⟩ : ∃ f', f = f' + 1 := ⟨f - 1, by simp at hf; omega⟩
    have hmax : max (depthV v) (depthO t) ≤ f' := by rw [depthO_cons] at hf; omega
    have hfv : depthV v ≤ f' := le_trans (le_max_left _ _) hmax
    have hft : depthO t ≤ f' := le_trans (le_max_right _ _) hmax
    have hsk : skipWs (ws0 ++ bodyO st d (ws1 ++ ('}' :: rest)) (JObj.cons k v t))
        = '"' :: (escapeList k ++ ('"' :: ':' :: (st.colonSep ++ (serVal st d v ++
            (serObjRest st d t ++ (ws1 ++ ('}' :: rest))))))) := by
      simp only [bodyO, serField_eq, List.cons_append, List.append_assoc]
      exact skipWs_shape hws0 (by decide) _
    rw [parseFields_step_field hsk]
    have hndh : noDigitHead (serObjRest st d t ++ (ws1 ++ ('}' :: rest))) := by
      cases t with
      | nil =>
        simp only [serObjRest_nil, List.nil_append]
        exact noDigitHead_ws_append hws1 (noDigitHead_cons (by decide) rest)
      | cons k2 v2 t2 =>
        simp only [serObjRest_cons, List.cons_append]
        exact noDigitHead_cons (by decide) _
    have hPV : parseVal f' (st.colonSep ++ (serVal st d v ++
        (serObjRest st d t ++ (ws1 ++ ('}' :: rest)))))
        = some (v, serObjRest st d t ++ (ws1 ++ ('}' :: rest))) :=
      roundTripV st hst v hsv f' hfv d st.colonSep
        (serObjRest st d t ++ (ws1 ++ ('}' :: rest))) hst.2 hndh
    rw [hPV]
    cases t with
    | nil =>
      have hsk2 : skipWs (serObjRest st d JObj.nil ++ (ws1 ++ ('}' :: rest)))
          = '}' :: rest := by
        simp only [serObjRest_nil, List.nil_append]
        exact skipWs_shape hws1 (by decide) rest
      simp only [hsk2, eq_false (by decide : ¬('}' : Char) = ','), if_false,
        eq_self_iff_true, if_true]
    | cons k2 v2 t2 =>
      have hsk2 : skipWs (serObjRest st d (JObj.cons k2 v2 t2) ++ (ws1 ++ ('}' :: rest)))
          = ',' :: (st.nl d ++ (serField st d k2 v2 ++ (serObjRest st d t2 ++
              (ws1 ++ ('}' :: rest))))) := by
        simp only [serObjRest_cons, List.cons_append, List.append_assoc]
        exact skipWs_cons_of_not (by decide) _
      have hRO := roundTripO st hst (JObj.cons k2 v2 t2) hstl f' hft d (st.nl d) ws1 rest
        (hst.1 d) hws1 hrest
      simp only [bodyO] at hRO
      simp only [hsk2, eq_self_iff_true, if_true, hRO, Option.map_some']
termination_by sizeOf o

end

theorem serVal_length_pos (st : Style) (d : Nat) (v : Json)
    (hs : firstUnsupportedV v = none) : 1 ≤ (serVal st d v).length := by
  obtain ⟨c, cs, hc, _, _, _⟩ := serVal_head st d v hs
  rw [hc]
  simp

mutual

theorem depthV_le_len (st : Style) (d : Nat) (v : Json)
    (hs : firstUnsupportedV v = none) : depthV v ≤ (serVal st d v).length := by
  cases v with
  | null => simp
  | bool b => cases b <;> simp
  | num n =>
    cases n with
    | ofNat m =>
      have h1 : 1 ≤ (natChars m).length :=
        List.length_pos.mpr (natChars_ne_nil m)
      simp only [depthV_num, serVal_num, intChars]
      omega
    | negSucc m => simp [intChars]
  | str s => simp
  | arr a =>
    cases a with
    | nil => simp
    | cons h t =>
      obtain ⟨hsh, hstl⟩ := supA_cons (supV_arr hs)
      have ih1 := depthV_le_len st (d + 1) h hsh
      have ih2 := depthA_le_len st (d + 1) t hstl
      have hp := serVal_length_pos st (d + 1) h hsh
      simp only [depthV_arr, depthA_cons, serVal_arr_cons, List.length_cons,
        List.length_append, List.length_singleton]
      omega
  | obj o =>
    cases o with
    | nil => simp
    | cons k v t =>
      obtain ⟨hsv, hstl⟩ := supO_cons (supV_obj hs)
      have ih1 := depthV_le_len st (d + 1) v hsv
      have ih2 := depthO_le_len st (d + 1) t hstl
      simp only [depthV_obj, depthO_cons, serVal_obj_cons, serField_eq, List.length_cons,
        List.length_append, List.length_singleton]
      omega
  | unsupported t => simp
termination_by sizeOf v

theorem depthA_le_len (st : Style) (d : Nat) (a : JArr)
    (hs : firstUnsupportedA a = none) : depthA a ≤ (serArrRest st d a).length + 1 := by
  cases a with
  | nil => simp
  | cons h t =>
    obtain ⟨hsh, hstl⟩ := supA_cons hs
    have ih1 := depthV_le_len st d h hsh
    have ih2 := depthA_le_len st d t hstl
    simp only [depthA_cons, serArrRest_cons, List.length_cons, List.length_append]
    omega
termination_by sizeOf a

theorem depthO_le_len (st : Style) (d : Nat) (o : JObj)
    (hs : firstUnsupportedO o = none) : depthO o ≤ (serObjRest st d o).length + 1 := by
  cases o with
  | nil => simp
  | cons k v t =>
    obtain ⟨hsv, hstl⟩ := supO_cons hs
    have ih1 := depthV_le_len st d v hsv
    have ih2 := depthO_le_len st d t hstl
    simp only [depthO_cons, serObjRest_cons, serField_eq, List.length_cons,
      List.length_append]
    omega
termination_by sizeOf o

end

theorem skipWs_eq_nil {l : List Char} (h : wsList l) : skipWs l = [] := by
  induction l with
  | nil => rfl
  | cons c t ih =>
    have hc : isWs c = true := h c (List.mem_cons_self c t)
    have ht : wsList t := fun x hx => h x (List.mem_cons_of_mem c hx)
    simp [skipWs, hc, ih ht]

theorem noDigitHead_of_ws {l : List Char} (h : wsList l) : noDigitHead l := by
  cases l with
  | nil => trivial
  | cons c t => exact noDigitHead_cons (isWs_not_digit (h c (List.mem_cons_self c t))) t

theorem parse_serVal (st : Style) (hst : wsStyle st) (v : Json)
    (hs : firstUnsupportedV v = none) (extra : List Char) (hx : wsList extra) :
    parse (serVal st 0 v ++ extra) = some v := by
  have hfuel : depthV v ≤ (serVal st 0 v ++ extra).length + 1 := by
    have h1 := depthV_le_len st 0 v hs
    simp only [List.length_append]
    omega
  have hrt := roundTripV st hst v hs ((serVal st 0 v ++ extra).length + 1) hfuel 0 [] extra
    wsList_nil (noDigitHead_of_ws hx)
  rw [List.nil_append] at hrt
  simp only [List.length_append] at hrt
  simp [parse, hrt, skipWs_eq_nil hx]

theorem strip_append (a b : List Char) :
    stripIndent (a ++ b) = stripIndent a ++ stripIndent b := by
  simp [stripIndent]

theorem strip_cons_keep {c : Char} (h1 : ¬c = '\n') (h2 : ¬c = '\t') (l : List Char) :
    stripIndent (c :: l) = c :: stripIndent l := by
  simp [stripIndent, List.filter_cons, h1, h2]

theorem strip_drop_nl (l : List Char) : stripIndent ('\n' :: l) = stripIndent l := by
  simp [stripIndent, List.filter_cons]

theorem strip_nl (d : Nat) : stripIndent (indentStyle.nl d) = [] := by
  simp only [indentStyle]
  rw [strip_drop_nl]
  induction d with
  | zero => rfl
  | succ n ih =>
    rw [List.replicate_succ]
    simp [stripIndent, List.filter_cons]

theorem strip_escChar (c : Char) : stripIndent (escChar c) = escChar c := by
  by_cases h1 : c = '"'
  · subst h1; decide
  · by_cases h2 : c = '\\'
    · subst h2; decide
    · by_cases h3 : c = '\n'
      · subst h3; decide
      · by_cases h4 : c = '\t'
        · subst h4; decide
        · by_cases h5 : c = '\r'
          · subst h5; decide
          · simp [escChar, h1, h2, h3, h4, h5, stripIndent, List.filter_cons]

theorem strip_escapeList (s : List Char) : stripIndent (escapeList s) = escapeList s := by
  induction s with
  | nil => rfl
  | cons c t ih => rw [escapeList, strip_append, strip_escChar, ih]

theorem strip_all_digits {l : List Char} (h : ∀ c ∈ l, c.isDigit = true) :
    stripIndent l = l := by
  rw [stripIndent, List.filter_eq_self]
  intro c hc
  obtain ⟨_, _, _, _, _, _, _, _, _, _, _, h12, h13, _⟩ := isDigit_ne (h c hc)
  simp [h12, h13]

theorem strip_intChars (n : Int) : stripIndent (intChars n) = intChars n := by
  cases n with
  | ofNat m => simp only [intChars]; exact strip_all_digits (natChars_all_digits m)
  | negSucc m =>
    simp only [intChars]
    rw [strip_cons_keep (by decide) (by decide)]
    rw [strip_all_digits (natChars_all_digits (m + 1))]

theorem strip_serField_of {d : Nat} {v : Json} (k : List Char)
    (ih : stripIndent (serVal indentStyle d v) = serVal strippedStyle d v) :
    stripIndent (serField indentStyle d k v) = serField strippedStyle d k v := by
  simp only [serField_eq]
  rw [strip_cons_keep (by decide) (by decide), strip_append, strip_escapeList,
    strip_cons_keep (by decide) (by decide), strip_cons_keep (by decide) (by decide),
    strip_append, ih]
  rw [show stripIndent indentStyle.colonSep = strippedStyle.colonSep from by decide]

mutual

theorem stripV (d : Nat) (v : Json) :
    stripIndent (serVal indentStyle d v) = serVal strippedStyle d v := by
  cases v with
  | null => simp only [serVal_null]; decide
  | bool b => cases b <;> (simp only [serVal_true, serVal_false]; decide)
  | num n => simp only [serVal_num]; exact strip_intChars n
  | str s =>
    simp only [serVal_str]
    rw [strip_cons_keep (by decide) (by decide), strip_append, strip_escapeList]
    rw [show stripIndent ['"'] = ['"'] from by decide]
  | arr a =>
    cases a with
    | nil => simp only [serVal_arr_nil]; decide
    | cons h t =>
      have ih1 := stripV (d + 1) h
      have ih2 := stripA (d + 1) t
      simp only [serVal_arr_cons]
      rw [strip_cons_keep (by decide) (by decide), strip_append, strip_nl, strip_append,
        ih1, strip_append, ih2, strip_append, strip_nl]
      rw [show stripIndent [']'] = [']'] from by decide]
      simp [strippedStyle]
  | obj o =>
    cases o with
    | nil => simp only [serVal_obj_nil]; decide
    | cons k v t =>
      have ih1 := strip_serField_of k (stripV (d + 1) v)
      have ih2 := stripO (d + 1) t
      simp only [serVal_obj_cons]
      rw [strip_cons_keep (by decide) (by decide), strip_append, strip_nl, strip_append,
        ih1, strip_append, ih2, strip_append, strip_nl]
      rw [show stripIndent ['}'] = ['}'] from by decide]
      simp [strippedStyle]
  | unsupported t => simp only [serVal_unsupported]; rfl
termination_by sizeOf v

theorem stripA (d : Nat) (a : JArr) :
    stripIndent (serArrRest indentStyle d a) = serArrRest strippedStyle d a := by
  cases a with
  | nil => simp only [serArrRest_nil]; rfl
  | cons h t =>
    have ih1 := stripV d h
    have ih2 := stripA d t
    simp only [serArrRest_cons]
    rw [strip_cons_keep (by decide) (by decide), strip_append, strip_nl, strip_append,
      ih1, ih2]
    simp [strippedStyle]
termination_by sizeOf a

theorem stripO (d : Nat) (o : JObj) :
    stripIndent (serObjRest indentStyle d o) = serObjRest strippedStyle d o := by
  cases o with
  | nil => simp only [serObjRest_nil]; rfl
  | cons k v t =>
    have ih1 := strip_serField_of k (stripV d v)
    have ih2 := stripO d t
    simp only [serObjRest_cons]
    rw [strip_cons_keep (by decide) (by decide), strip_append, strip_nl, strip_append,
      ih1, ih2]
    simp [strippedStyle]
termination_by sizeOf o

end

theorem marshalIndent_ok {v : Json} {data : List Char}
    (h : marshalIndent v = Except.ok data) :
    firstUnsupportedV v = none ∧ data = serVal indentStyle 0 v := by
  unfold marshalIndent at h
  cases hh : firstUnsupportedV v with
  | some t => rw [hh] at h; simp at h
  | none => rw [hh] at h; simp at h; exact ⟨rfl, h.symm⟩

theorem marshal_ok_of_sup {v : Json} (hs : firstUnsupportedV v = none) :
    marshal v = Except.ok (serVal compactStyle 0 v) := by
  simp [marshal, hs]

/-- C1: in every run in which the enumeration facility returns a snapshot `v`
without error and serialization of that snapshot succeeds with bytes `data`
(the tab-indented JSON serialization, `json.MarshalIndent(v, "", "\t")`), the
program writes to standard output exactly `data` followed by a single trailing
newline, writes nothing else, and exits with status 0. -/
theorem C1_success_output (v : Json) (data : List Char)
    (h : marshalIndent v = Except.ok data) :
    run (Except.ok v) = { stdout := data ++ ['\n'], stderr := [], exitCode := 0 } := by
  simp [run, mainSteps, h, stdoutOf, stderrOf, exitOf]

/-- C1 witness at the snapshot `[1]`. -/
theorem C1_success_output_witness :
    marshalIndent (Json.arr (JArr.cons (Json.num 1) JArr.nil))
        = Except.ok ['[', '\n', '\t', '1', '\n', ']']
    ∧ run (Except.ok (Json.arr (JArr.cons (Json.num 1) JArr.nil)))
        = { stdout := ['[', '\n', '\t', '1', '\n', ']'] ++ ['\n'], stderr := [],
            exitCode := 0 } := by
  have hm : marshalIndent (Json.arr (JArr.cons (Json.num 1) JArr.nil))
      = Except.ok ['[', '\n', '\t', '1', '\n', ']'] := by
    simp [marshalIndent, indentStyle, intChars, natChars, natCharsAux, Nat.digitChar,
      List.replicate]
  exact ⟨hm, C1_success_output _ _ hm⟩

/-- C2: in every run in which the enumeration facility fails with error
message `M`, the program's entire standard output is exactly the string
`error: M` followed by a newline, nothing is written to standard error, and
the program exits with status 1. -/
theorem C2_enum_error_output (M : List Char) :
    run (Except.error M)
      = { stdout := errPrefix ++ (M ++ ['\n']), stderr := [], exitCode := 1 } := by
  simp [run, mainSteps, stdoutOf, stderrOf, exitOf]

/-- C3: in every run in which enumeration succeeds with snapshot `v` but
serialization fails with message `e`, the program's standard output is the
single line `error: e` (it begins with the prefix `error: `), the exit status
is 1, and the step trace shows no output step before the error line: no bytes
of JSON are written on the error path. -/
theorem C3_marshal_error_output (v : Json) (e : List Char)
    (h : marshalIndent v = Except.error e) :
    run (Except.ok v)
        = { stdout := errPrefix ++ (e ++ ['\n']), stderr := [], exitCode := 1 }
    ∧ (run (Except.ok v)).stdout.take errPrefix.length = errPrefix
    ∧ mainSteps (Except.ok v) =
        [Step.getResources, Step.marshalIndentCall,
         Step.printStdout (errPrefix ++ (e ++ ['\n'])), Step.exitProc 1] := by
  have h1 : run (Except.ok v)
      = { stdout := errPrefix ++ (e ++ ['\n']), stderr := [], exitCode := 1 } := by
    simp [run, mainSteps, h, stdoutOf, stderrOf, exitOf]
  refine ⟨h1, ?_, ?_⟩
  · rw [h1]
    exact List.take_left errPrefix (e ++ ['\n'])
  · simp [mainSteps, h]

/-- C3 witness at a snapshot containing a serializer-unrepresentable value. -/
theorem C3_marshal_error_output_witness :
    marshalIndent (Json.unsupported ['c', 'h', 'a', 'n'])
        = Except.error (unsupportedMsg ['c', 'h', 'a', 'n'])
    ∧ run (Except.ok (Json.unsupported ['c', 'h', 'a', 'n']))
        = { stdout := errPrefix ++ (unsupportedMsg ['c', 'h', 'a', 'n'] ++ ['\n']),
            stderr := [], exitCode := 1 } := by
  have hm : marshalIndent (Json.unsupported ['c', 'h', 'a', 'n'])
      = Except.error (unsupportedMsg ['c', 'h', 'a', 'n']) := by
    simp [marshalIndent]
  exact ⟨hm, (C3_marshal_error_output _ _ hm).1⟩

/-- C4: for every snapshot `v` returned by a successful enumeration for which
serialization succeeds, parsing the program's standard-output text as JSON
yields exactly the value `v` the facility returned (serialize-then-parse is
the identity). -/
theorem C4_round_trip (v : Json) (data : List Char)
    (h : marshalIndent v = Except.ok data) :
    parse ((run (Except.ok v)).stdout) = some v := by
  obtain ⟨hs, rfl⟩ := marshalIndent_ok h
  have hrun : (run (Except.ok v)).stdout = serVal indentStyle 0 v ++ ['\n'] := by
    simp [run, mainSteps, h, stdoutOf]
  rw [hrun]
  exact parse_serVal indentStyle wsStyle_indent v hs ['\n']
    (by intro c hc; simp at hc; subst hc; decide)

/-- C4 witness at the snapshot `[1]`. -/
theorem C4_round_trip_witness :
    marshalIndent (Json.arr (JArr.cons (Json.num 1) JArr.nil))
        = Except.ok ['[', '\n', '\t', '1', '\n', ']']
    ∧ parse ((run (Except.ok (Json.arr (JArr.cons (Json.num 1) JArr.nil)))).stdout)
        = some (Json.arr (JArr.cons (Json.num 1) JArr.nil)) := by
  have hm : marshalIndent (Json.arr (JArr.cons (Json.num 1) JArr.nil))
      = Except.ok ['[', '\n', '\t', '1', '\n', ']'] := by
    simp [marshalIndent, indentStyle, intChars, natChars, natCharsAux, Nat.digitChar,
      List.replicate]
  exact ⟨hm, C4_round_trip _ _ hm⟩

/-- C5: for every snapshot `v` whose serialization succeeds, the tab-indented
output with all indentation characters stripped parses to the same value `v`,
and the compact serialization (`json.Marshal`) also parses to `v`: indented
and compact serialization denote the same logical JSON value. -/
theorem C5_format_equivalence (v : Json) (data : List Char)
    (h : marshalIndent v = Except.ok data) :
    ∃ cdata, marshal v = Except.ok cdata ∧
      parse (stripIndent data) = some v ∧ parse cdata = some v := by
  obtain ⟨hs, rfl⟩ := marshalIndent_ok h
  refine ⟨serVal compactStyle 0 v, marshal_ok_of_sup hs, ?_, ?_⟩
  · rw [stripV 0 v]
    have h2 := parse_serVal strippedStyle wsStyle_stripped v hs [] wsList_nil
    simpa using h2
  · have h2 := parse_serVal compactStyle wsStyle_compact v hs [] wsList_nil
    simpa using h2

/-- C5 witness at the snapshot `[1]`. -/
theorem C5_format_equivalence_witness :
    marshalIndent (Json.arr (JArr.cons (Json.num 1) JArr.nil))
        = Except.ok ['[', '\n', '\t', '1', '\n', ']']
    ∧ ∃ cdata, marshal (Json.arr (JArr.cons (Json.num 1) JArr.nil)) = Except.ok cdata ∧
        parse (stripIndent ['[', '\n', '\t', '1', '\n', ']'])
          = some (Json.arr (JArr.cons (Json.num 1) JArr.nil))
        ∧ parse cdata = some (Json.arr (JArr.cons (Json.num 1) JArr.nil)) := by
  have hm : marshalIndent (Json.arr (JArr.cons (Json.num 1) JArr.nil))
      = Except.ok ['[', '\n', '\t', '1', '\n', ']'] := by
    simp [marshalIndent, indentStyle, intChars, natChars, natCharsAux, Nat.digitChar,
      List.replicate]
  exact ⟨hm, C5_format_equivalence _ _ hm⟩

/-- C6: in every run, on every control path, the program writes nothing to
standard error: all output, including error diagnostics, goes to standard
output. -/
theorem C6_no_stderr (res : Except (List Char) Json) :
    (run res).stderr = [] ∧ stderrOf (mainSteps res) = [] := by
  cases res with
  | error e => simp [run, mainSteps, stderrOf]
  | ok v =>
    cases hm : marshalIndent v with
    | error e => simp [run, mainSteps, hm, stderrOf]
    | ok data => simp [run, mainSteps, hm, stderrOf]

/-- C7: the program consumes no command-line arguments: for any two argument
vectors and the same enumeration result, the outcome (stdout bytes, stderr
bytes and exit status) is identical. -/
theorem C7_argv_independent (argv1 argv2 : List (List Char))
    (res : Except (List Char) Json) :
    program argv1 res = program argv2 res := rfl

/-- C8: every run starts with the enumeration call; the enumeration call
happens exactly once and the serialization call at most once (no retries);
if enumeration fails, serialization is never attempted; and the step trace is
one of the three terminating shapes: enumeration failure, serialization
failure, or full success, each ending in a single exit step. -/
theorem C8_step_order (res : Except (List Char) Json) :
    ((mainSteps res).head? = some Step.getResources)
    ∧ ((mainSteps res).count Step.getResources = 1)
    ∧ ((mainSteps res).count Step.marshalIndentCall ≤ 1)
    ∧ (∀ e, res = Except.error e → Step.marshalIndentCall ∉ mainSteps res)
    ∧ ((∃ e, res = Except.error e ∧
          mainSteps res = [Step.getResources,
            Step.printStdout (errPrefix ++ (e ++ ['\n'])), Step.exitProc 1])
       ∨ (∃ v e, res = Except.ok v ∧ marshalIndent v = Except.error e ∧
          mainSteps res = [Step.getResources, Step.marshalIndentCall,
            Step.printStdout (errPrefix ++ (e ++ ['\n'])), Step.exitProc 1])
       ∨ (∃ v data, res = Except.ok v ∧ marshalIndent v = Except.ok data ∧
          mainSteps res = [Step.getResources, Step.marshalIndentCall,
            Step.printStdout (data ++ ['\n']), Step.exitProc 0])) := by
  cases res with
  | error e =>
    refine ⟨by simp [mainSteps], ?_, ?_, ?_, ?_⟩
    · simp [mainSteps, List.count_cons, beq_iff_eq]
    · simp [mainSteps, List.count_cons, beq_iff_eq]
    · intro e' he'
      simp [mainSteps]
    · exact Or.inl ⟨e, rfl, by simp [mainSteps]⟩
  | ok v =>
    cases hm : marshalIndent v with
    | error e2 =>
      refine ⟨by simp [mainSteps, hm], ?_, ?_, ?_, ?_⟩
      · simp [mainSteps, hm, List.count_cons, beq_iff_eq]
      · simp [mainSteps, hm, List.count_cons, beq_iff_eq]
      · intro e' he'
        exact absurd he' (by simp)
      · exact Or.inr (Or.inl ⟨v, e2, rfl, hm, by simp [mainSteps, hm]⟩)
    | ok data =>
      refine ⟨by simp [mainSteps, hm], ?_, ?_, ?_, ?_⟩
      · simp [mainSteps, hm, List.count_cons, beq_iff_eq]
      · simp [mainSteps, hm, List.count_cons, beq_iff_eq]
      · intro e' he'
        exact absurd he' (by simp)
      · exact Or.inr (Or.inr ⟨v, data, rfl, hm, by simp [mainSteps, hm]⟩)

/-- C8 witness at an enumeration failure. -/
theorem C8_step_order_witness :
    (mainSteps (Except.error ['x'])).head? = some Step.getResources :=
  (C8_step_order (Except.error ['x'])).1

/-- C9: the exit status is 0 if and only if both the enumeration step and the
serialization step succeed; it is 1 on any enumeration or serialization
failure; no other exit status is ever produced. -/
theorem C9_exit_codes (res : Except (List Char) Json) :
    ((run res).exitCode = 0
        ↔ ∃ v data, res = Except.ok v ∧ marshalIndent v = Except.ok data)
    ∧ ((run res).exitCode = 0 ∨ (run res).exitCode = 1) := by
  cases res with
  | error e =>
    constructor
    · simp [run, mainSteps, exitOf]
    · right
      simp [run, mainSteps, exitOf]
  | ok v =>
    cases hm : marshalIndent v with
    | error e2 =>
      constructor
      · simp [run, mainSteps, hm, exitOf]
      · right
        simp [run, mainSteps, hm, exitOf]
    | ok data =>
      constructor
      · simp [run, mainSteps, hm, exitOf]
      · left
        simp [run, mainSteps, hm, exitOf]

/-- C10: the program is deterministic in its input: identical enumeration
results produce byte-for-byte identical standard output and the same exit
status. -/
theorem C10_deterministic (r1 r2 : Except (List Char) Json) (h : r1 = r2) :
    (run r1).stdout = (run r2).stdout ∧ (run r1).exitCode = (run r2).exitCode := by
  subst h
  exact ⟨rfl, rfl⟩

/-- C10 witness at an enumeration failure. -/
theorem C10_deterministic_witness :
    (run (Except.error ['x'])).stdout = (run (Except.error ['x'])).stdout
    ∧ (run (Except.error ['x'])).exitCode = (run (Except.error ['x'])).exitCode :=
  C10_deterministic (Except.error ['x']) (Except.error ['x']) rfl

end MachineResources
